import Mathlib

/-!
Verification of the note-taking service `src/app.py`.

The program stores notes whose title and content are encrypted at rest:
`encrypt_text` runs the plaintext through UTF-8 encoding, a Fernet token
construction (version byte, big-endian timestamp, IV, AES-128-CBC over
PKCS7-padded plaintext, HMAC-SHA256 tag, url-safe base64), and a second,
standard base64 encoding; `decrypt_text` reverses the pipeline and maps any
failure to the sentinel string "[Decryption Error]".  The CRUD layer keeps a
list of records with auto-assigned ids and timestamps.

Python strings are modelled as lists of Unicode code points (`PyStr`), byte
strings as lists of naturals below 256.  The AES block permutation and the
HMAC-SHA256 compression are the only parts left abstract: they are threaded
through as the fields of a `Crypto` value, with the properties the library
guarantees (`GoodCrypto`).  Everything else — UTF-8, both base64 layers
(including `binascii`'s lenient decoder), CBC chaining, PKCS7 padding, the
Fernet token format, and the repository operations — is concrete and
executable.
-/

/-- A Python `str`, as its list of Unicode code points. -/
abbrev PyStr := List Nat

/-- A Unicode scalar value: below 0x110000 and not a surrogate. -/
def ValidCodePoint (c : Nat) : Prop :=
  c < 1114112 ∧ ¬ (55296 ≤ c ∧ c < 57344)

instance (c : Nat) : Decidable (ValidCodePoint c) := by
  unfold ValidCodePoint; infer_instance

/-- All code points of the string are Unicode scalar values. -/
def ValidStr (s : PyStr) : Prop := ∀ c ∈ s, ValidCodePoint c

instance (s : PyStr) : Decidable (ValidStr s) := by
  unfold ValidStr ValidCodePoint; infer_instance

/-- The code points of the literal `'[Decryption Error]'` from `decrypt_text`. -/
def sentinel : PyStr :=
  [91, 68, 101, 99, 114, 121, 112, 116, 105, 111, 110, 32, 69, 114, 114, 111, 114, 93]

/-- The code points of the literal `'Untitled'`, the default title. -/
def untitled : PyStr := [85, 110, 116, 105, 116, 108, 101, 100]

/-! ## UTF-8 (`str.encode('utf-8')` / `bytes.decode('utf-8')`) -/

/-- UTF-8 encoding of one scalar value. -/
def utf8EncodeChar (c : Nat) : List Nat :=
  if c < 128 then [c]
  else if c < 2048 then [192 + c / 64, 128 + c % 64]
  else if c < 65536 then [224 + c / 4096, 128 + c / 64 % 64, 128 + c % 64]
  else [240 + c / 262144, 128 + c / 4096 % 64, 128 + c / 64 % 64, 128 + c % 64]

/-- `s.encode('utf-8')`. -/
def utf8Encode (s : PyStr) : List Nat := (s.map utf8EncodeChar).flatten

/-- Decode one UTF-8 sequence from the front (strict: rejects continuation
leads, overlongs, surrogates and values above 0x10FFFF, like Python's
`.decode('utf-8')`). -/
def utf8DecodeOne : List Nat → Option (Nat × List Nat)
  | [] => none
  | b :: rest =>
    if b < 128 then some (b, rest)
    else if b < 194 then none
    else if b < 224 then
      match rest with
      | b1 :: r =>
        if 128 ≤ b1 ∧ b1 < 192 then some ((b - 192) * 64 + (b1 - 128), r) else none
      | [] => none
    else if b < 240 then
      match rest with
      | b1 :: b2 :: r =>
        if (if b = 224 then 160 ≤ b1 ∧ b1 < 192
            else if b = 237 then 128 ≤ b1 ∧ b1 < 160
            else 128 ≤ b1 ∧ b1 < 192) ∧ 128 ≤ b2 ∧ b2 < 192
        then some ((b - 224) * 4096 + (b1 - 128) * 64 + (b2 - 128), r) else none
      | _ => none
    else if b < 245 then
      match rest with
      | b1 :: b2 :: b3 :: r =>
        if (if b = 240 then 144 ≤ b1 ∧ b1 < 192
            else if b = 244 then 128 ≤ b1 ∧ b1 < 144
            else 128 ≤ b1 ∧ b1 < 192) ∧ (128 ≤ b2 ∧ b2 < 192) ∧ (128 ≤ b3 ∧ b3 < 192)
        then some ((b - 240) * 262144 + (b1 - 128) * 4096 + (b2 - 128) * 64 + (b3 - 128), r)
        else none
      | _ => none
    else none

/-- Fuelled driver for `utf8Decode`; each step consumes at least one byte. -/
def utf8DecodeGo : Nat → List Nat → Option (List Nat)
  | _, [] => some []
  | 0, _ :: _ => none
  | k + 1, b :: bs =>
    match utf8DecodeOne (b :: bs) with
    | none => none
    | some (c, r) => (utf8DecodeGo k r).map (fun x => c :: x)

/-- `bytes.decode('utf-8')`: `some` of the string, or `none` on invalid UTF-8. -/
def utf8Decode (l : List Nat) : Option PyStr := utf8DecodeGo l.length l

theorem utf8EncodeChar_lt256 (c : Nat) (h : ValidCodePoint c) :
    ∀ b ∈ utf8EncodeChar c, b < 256 := by
  obtain ⟨h1, _⟩ := h
  unfold utf8EncodeChar
  split_ifs with h2 h3 h4 <;> intro b hb <;> simp at hb <;> omega

theorem utf8Encode_lt256 (s : PyStr) (h : ValidStr s) :
    ∀ b ∈ utf8Encode s, b < 256 := by
  intro b hb
  simp only [utf8Encode, List.mem_flatten, List.mem_map] at hb
  obtain ⟨l, ⟨c, hc, rfl⟩, hbl⟩ := hb
  exact utf8EncodeChar_lt256 c (h c hc) b hbl

theorem utf8EncodeChar_length_pos (c : Nat) : 1 ≤ (utf8EncodeChar c).length := by
  unfold utf8EncodeChar
  split_ifs <;> simp

theorem utf8EncodeChar_cons (c : Nat) : ∃ b bs, utf8EncodeChar c = b :: bs := by
  unfold utf8EncodeChar
  split_ifs <;> exact ⟨_, _, rfl⟩

theorem utf8EncodeChar_ascii (c : Nat) (h : c < 128) : utf8EncodeChar c = [c] := by
  unfold utf8EncodeChar
  rw [if_pos h]

/-- Decoding one sequence undoes encoding one scalar value. -/
theorem utf8DecodeOne_encode (c : Nat) (h : ValidCodePoint c) (r : List Nat) :
    utf8DecodeOne (utf8EncodeChar c ++ r) = some (c, r) := by
  obtain ⟨h1, h2⟩ := h
  unfold utf8EncodeChar
  split_ifs with ha hb hc
  · simp [utf8DecodeOne, ha]
  · have e1 : ¬ (192 + c / 64 < 128) := by omega
    have e2 : ¬ (192 + c / 64 < 194) := by omega
    have e3 : 192 + c / 64 < 224 := by omega
    have e4 : 128 ≤ 128 + c % 64 ∧ 128 + c % 64 < 192 := by omega
    simp only [List.cons_append, List.nil_append, utf8DecodeOne, if_neg e1, if_neg e2,
      if_pos e3, if_pos e4, Option.some.injEq, Prod.mk.injEq]
    exact ⟨by omega, trivial⟩
  · have e1 : ¬ (224 + c / 4096 < 128) := by omega
    have e2 : ¬ (224 + c / 4096 < 194) := by omega
    have e3 : ¬ (224 + c / 4096 < 224) := by omega
    have e4 : 224 + c / 4096 < 240 := by omega
    have e5 : (if 224 + c / 4096 = 224 then 160 ≤ 128 + c / 64 % 64 ∧ 128 + c / 64 % 64 < 192
        else if 224 + c / 4096 = 237 then 128 ≤ 128 + c / 64 % 64 ∧ 128 + c / 64 % 64 < 160
        else 128 ≤ 128 + c / 64 % 64 ∧ 128 + c / 64 % 64 < 192) = True := by
      split_ifs <;> simp <;> omega
    have e6 : 128 ≤ 128 + c % 64 ∧ 128 + c % 64 < 192 := by omega
    simp only [List.cons_append, List.nil_append, utf8DecodeOne, if_neg e1, if_neg e2,
      if_neg e3, if_pos e4, e5, true_and, if_pos e6, Option.some.injEq, Prod.mk.injEq]
    exact ⟨by omega, trivial⟩
  · have e1 : ¬ (240 + c / 262144 < 128) := by omega
    have e2 : ¬ (240 + c / 262144 < 194) := by omega
    have e3 : ¬ (240 + c / 262144 < 224) := by omega
    have e4 : ¬ (240 + c / 262144 < 240) := by omega
    have e5 : 240 + c / 262144 < 245 := by omega
    have e6 : (if 240 + c / 262144 = 240 then 144 ≤ 128 + c / 4096 % 64 ∧ 128 + c / 4096 % 64 < 192
        else if 240 + c / 262144 = 244 then 128 ≤ 128 + c / 4096 % 64 ∧ 128 + c / 4096 % 64 < 144
        else 128 ≤ 128 + c / 4096 % 64 ∧ 128 + c / 4096 % 64 < 192) = True := by
      split_ifs <;> simp <;> omega
    have e7 : (128 ≤ 128 + c / 64 % 64 ∧ 128 + c / 64 % 64 < 192) ∧
        128 ≤ 128 + c % 64 ∧ 128 + c % 64 < 192 := by omega
    simp only [List.cons_append, List.nil_append, utf8DecodeOne, if_neg e1, if_neg e2,
      if_neg e3, if_neg e4, if_pos e5, e6, true_and, if_pos e7,
      Option.some.injEq, Prod.mk.injEq]
    exact ⟨by omega, trivial⟩

theorem utf8DecodeGo_encode (s : PyStr) (h : ValidStr s) :
    ∀ k, (utf8Encode s).length ≤ k → utf8DecodeGo k (utf8Encode s) = some s := by
  induction s with
  | nil => intro k _; cases k <;> rfl
  | cons c s ih =>
    intro k hk
    have henc : utf8Encode (c :: s) = utf8EncodeChar c ++ utf8Encode s := by
      simp [utf8Encode]
    obtain ⟨b, bs, hbs⟩ := utf8EncodeChar_cons c
    have hpos := utf8EncodeChar_length_pos c
    have hlen : (utf8Encode (c :: s)).length =
        (utf8EncodeChar c).length + (utf8Encode s).length := by
      rw [henc, List.length_append]
    cases k with
    | zero => omega
    | succ k =>
      have hcons : utf8Encode (c :: s) = b :: (bs ++ utf8Encode s) := by
        rw [henc, hbs]; rfl
      rw [hcons]
      have hone : utf8DecodeOne (b :: (bs ++ utf8Encode s)) = some (c, utf8Encode s) := by
        have := utf8DecodeOne_encode c (h c (by simp)) (utf8Encode s)
        rwa [hbs] at this
      simp only [utf8DecodeGo, hone]
      have hrest : utf8DecodeGo k (utf8Encode s) = some s := by
        apply ih (fun x hx => h x (by simp [hx]))
        have : (utf8Encode (c :: s)).length ≤ k + 1 := hk
        omega
      rw [hrest]
      rfl

/-- UTF-8 round trip: decoding an encoded valid string recovers it. -/
theorem utf8Decode_encode (s : PyStr) (h : ValidStr s) :
    utf8Decode (utf8Encode s) = some s :=
  utf8DecodeGo_encode s h _ le_rfl

/-- UTF-8 encoding is the identity on ASCII byte lists. -/
theorem utf8Encode_ascii (l : List Nat) (h : ∀ c ∈ l, c < 128) : utf8Encode l = l := by
  induction l with
  | nil => rfl
  | cons c s ih =>
    have : utf8Encode (c :: s) = utf8EncodeChar c ++ utf8Encode s := by simp [utf8Encode]
    rw [this, utf8EncodeChar_ascii c (h c (by simp)), ih (fun x hx => h x (by simp [hx]))]
    rfl

/-! ## Base64 (`base64.b64encode` / `base64.b64decode` / url-safe variants) -/

/-- Standard-alphabet character for a sextet value. -/
def b64Char (n : Nat) : Nat :=
  if n < 26 then 65 + n
  else if n < 52 then 71 + n
  else if n < 62 then n - 4
  else if n = 62 then 43
  else 47

/-- Url-safe-alphabet character for a sextet value (`-` and `_` for 62/63). -/
def b64uChar (n : Nat) : Nat :=
  if n < 26 then 65 + n
  else if n < 52 then 71 + n
  else if n < 62 then n - 4
  else if n = 62 then 45
  else 95

/-- Sextet value of a standard-alphabet character, `none` off the alphabet. -/
def sextetOf (ch : Nat) : Option Nat :=
  if 65 ≤ ch ∧ ch ≤ 90 then some (ch - 65)
  else if 97 ≤ ch ∧ ch ≤ 122 then some (ch - 71)
  else if 48 ≤ ch ∧ ch ≤ 57 then some (ch + 4)
  else if ch = 43 then some 62
  else if ch = 47 then some 63
  else none

/-- Base64 encoding with a given alphabet, always padded with `=` (61),
as `binascii.b2a_base64` produces. -/
def b64EncodeWith (f : Nat → Nat) : List Nat → List Nat
  | [] => []
  | [a] => [f (a / 4), f (a % 4 * 16), 61, 61]
  | [a, b] => [f (a / 4), f (a % 4 * 16 + b / 16), f (b % 16 * 4), 61]
  | a :: b :: c :: rest =>
    f (a / 4) :: f (a % 4 * 16 + b / 16) :: f (b % 16 * 4 + c / 64) :: f (c % 64) ::
      b64EncodeWith f rest

/-- `base64.b64encode` on bytes (the result is an ASCII byte string). -/
def b64Encode (l : List Nat) : List Nat := b64EncodeWith b64Char l

/-- `base64.urlsafe_b64encode` on bytes. -/
def urlsafeB64Encode (l : List Nat) : List Nat := b64EncodeWith b64uChar l

/-- The state machine of CPython's non-strict `binascii.a2b_base64`: characters
off the alphabet are skipped, `=` at quad position ≥ 2 with enough pads ends
the input successfully (residual bits are discarded), and input ending in the
middle of a quad is an error. -/
def a2b : List Nat → Nat → Nat → Nat → List Nat → Option (List Nat)
  | [], quadPos, _, _, acc => if quadPos = 0 then some acc.reverse else none
  | ch :: rest, quadPos, pads, left, acc =>
    if ch = 61 then
      if 2 ≤ quadPos then
        if 4 ≤ quadPos + pads + 1 then some acc.reverse
        else a2b rest quadPos (pads + 1) left acc
      else a2b rest quadPos pads left acc
    else
      match sextetOf ch with
      | none => a2b rest quadPos pads left acc
      | some v =>
        match quadPos with
        | 0 => a2b rest 1 0 v acc
        | 1 => a2b rest 2 0 (v % 16) ((left * 4 + v / 16) :: acc)
        | 2 => a2b rest 3 0 (v % 4) ((left * 16 + v / 4) :: acc)
        | _ => a2b rest 0 0 0 ((left * 64 + v) :: acc)

/-- `base64.b64decode` on a byte string (no `validate`): `some` bytes or
`none` where CPython raises `binascii.Error`. -/
def b64DecodeBytes (l : List Nat) : Option (List Nat) := a2b l 0 0 0 []

/-- `base64.urlsafe_b64decode`: translate `-`/`_` to `+`/`/`, then decode. -/
def usTr (ch : Nat) : Nat := if ch = 45 then 43 else if ch = 95 then 47 else ch

def urlsafeB64Decode (l : List Nat) : Option (List Nat) := b64DecodeBytes (l.map usTr)

theorem sextetOf_b64Char : ∀ n, n < 64 → sextetOf (b64Char n) = some n ∧ b64Char n ≠ 61 := by
  decide

theorem sextetOf_usTr_b64uChar :
    ∀ n, n < 64 → sextetOf (usTr (b64uChar n)) = some n ∧ usTr (b64uChar n) ≠ 61 := by
  decide

theorem map_usTr_b64EncodeWith :
    ∀ x : List Nat, (b64EncodeWith b64uChar x).map usTr =
      b64EncodeWith (fun n => usTr (b64uChar n)) x
  | [] => rfl
  | [_] => rfl
  | [_, _] => rfl
  | _ :: _ :: _ :: rest => by
    simp only [b64EncodeWith, List.map_cons]
    rw [map_usTr_b64EncodeWith rest]

/-- Decoding inverts encoding, for any alphabet whose characters decode back
to their sextet values and avoid `=`. -/
theorem a2b_b64EncodeWith (f : Nat → Nat)
    (hf : ∀ n, n < 64 → sextetOf (f n) = some n ∧ f n ≠ 61) :
    ∀ (x : List Nat), (∀ b ∈ x, b < 256) → ∀ (pads : Nat) (acc : List Nat),
      a2b (b64EncodeWith f x) 0 pads 0 acc = some (acc.reverse ++ x)
  | [], _, pads, acc => by simp [b64EncodeWith, a2b]
  | [a], hx, pads, acc => by
    have ha : a < 256 := hx a (by simp)
    obtain ⟨s1, n1⟩ := hf (a / 4) (by omega)
    obtain ⟨s2, n2⟩ := hf (a % 4 * 16) (by omega)
    simp only [b64EncodeWith, a2b, if_neg n1, s1, if_neg n2, s2]
    norm_num
    omega
  | [a, b], hx, pads, acc => by
    have ha : a < 256 := hx a (by simp)
    have hb : b < 256 := hx b (by simp)
    obtain ⟨s1, n1⟩ := hf (a / 4) (by omega)
    obtain ⟨s2, n2⟩ := hf (a % 4 * 16 + b / 16) (by omega)
    obtain ⟨s3, n3⟩ := hf (b % 16 * 4) (by omega)
    simp only [b64EncodeWith, a2b, if_neg n1, s1, if_neg n2, s2, if_neg n3, s3]
    norm_num
    exact ⟨by omega, by omega⟩
  | a :: b :: c :: rest, hx, pads, acc => by
    have ha : a < 256 := hx a (by simp)
    have hb : b < 256 := hx b (by simp)
    have hc : c < 256 := hx c (by simp)
    obtain ⟨s1, n1⟩ := hf (a / 4) (by omega)
    obtain ⟨s2, n2⟩ := hf (a % 4 * 16 + b / 16) (by omega)
    obtain ⟨s3, n3⟩ := hf (b % 16 * 4 + c / 64) (by omega)
    obtain ⟨s4, n4⟩ := hf (c % 64) (by omega)
    simp only [b64EncodeWith, a2b, if_neg n1, s1, if_neg n2, s2, if_neg n3, s3, if_neg n4, s4]
    have v1 : a / 4 * 4 + (a % 4 * 16 + b / 16) / 16 = a := by omega
    have v2 : (a % 4 * 16 + b / 16) % 16 * 16 + (b % 16 * 4 + c / 64) / 4 = b := by omega
    have v3 : (b % 16 * 4 + c / 64) % 4 * 64 + c % 64 = c := by omega
    rw [v1, v2, v3]
    rw [a2b_b64EncodeWith f hf rest (fun y hy => hx y (by simp [hy])) 0 (c :: b :: a :: acc)]
    simp

/-- `b64decode` inverts `b64encode` on byte strings. -/
theorem b64Decode_b64Encode (x : List Nat) (hx : ∀ b ∈ x, b < 256) :
    b64DecodeBytes (b64Encode x) = some x := by
  have := a2b_b64EncodeWith b64Char sextetOf_b64Char x hx 0 []
  simpa [b64DecodeBytes, b64Encode] using this

/-- `urlsafe_b64decode` inverts `urlsafe_b64encode` on byte strings. -/
theorem urlsafeB64Decode_encode (x : List Nat) (hx : ∀ b ∈ x, b < 256) :
    urlsafeB64Decode (urlsafeB64Encode x) = some x := by
  unfold urlsafeB64Decode urlsafeB64Encode b64DecodeBytes
  rw [map_usTr_b64EncodeWith]
  have := a2b_b64EncodeWith (fun n => usTr (b64uChar n)) sextetOf_usTr_b64uChar x hx 0 []
  simpa using this

theorem b64EncodeWith_mem_lt128 (f : Nat → Nat) (hf : ∀ n, n < 64 → f n < 128) :
    ∀ (x : List Nat), (∀ b ∈ x, b < 256) → ∀ c ∈ b64EncodeWith f x, c < 128
  | [], _ => by simp [b64EncodeWith]
  | [a], hx => by
    have ha : a < 256 := hx a (by simp)
    simp only [b64EncodeWith, List.mem_cons, List.not_mem_nil, or_false]
    rintro c (rfl | rfl | rfl | rfl)
    · exact hf _ (by omega)
    · exact hf _ (by omega)
    · omega
    · omega
  | [a, b], hx => by
    have ha : a < 256 := hx a (by simp)
    have hb : b < 256 := hx b (by simp)
    simp only [b64EncodeWith, List.mem_cons, List.not_mem_nil, or_false]
    rintro c (rfl | rfl | rfl | rfl)
    · exact hf _ (by omega)
    · exact hf _ (by omega)
    · exact hf _ (by omega)
    · omega
  | a :: b :: c :: rest, hx => by
    have ha : a < 256 := hx a (by simp)
    have hb : b < 256 := hx b (by simp)
    have hc : c < 256 := hx c (by simp)
    simp only [b64EncodeWith, List.mem_cons]
    rintro d (rfl | rfl | rfl | rfl | hd)
    · exact hf _ (by omega)
    · exact hf _ (by omega)
    · exact hf _ (by omega)
    · exact hf _ (by omega)
    · exact b64EncodeWith_mem_lt128 f hf rest (fun y hy => hx y (by simp [hy])) d hd

theorem b64Char_lt128 : ∀ n, n < 64 → b64Char n < 128 := by decide

theorem b64uChar_lt128 : ∀ n, n < 64 → b64uChar n < 128 := by decide

theorem b64EncodeWith_ne_nil (f : Nat → Nat) :
    ∀ (x : List Nat), x ≠ [] → b64EncodeWith f x ≠ []
  | [], h => absurd rfl h
  | [_], _ => by simp [b64EncodeWith]
  | [_, _], _ => by simp [b64EncodeWith]
  | _ :: _ :: _ :: _, _ => by simp [b64EncodeWith]

/-! ## AES-128-CBC with an abstract block permutation, PKCS7, Fernet tokens -/

/-- Pointwise XOR of two byte strings (zip semantics). -/
def xorB (a b : List Nat) : List Nat := List.zipWith (fun x y => x ^^^ y) a b

/-- CBC encryption, fuelled (each step consumes the next 16-byte block). -/
def cbcEgo (e : List Nat → List Nat) : Nat → List Nat → List Nat → List Nat
  | 0, _, _ => []
  | k + 1, prev, l =>
    if l = [] then []
    else
      let c := e (xorB prev (l.take 16))
      c ++ cbcEgo e k c (l.drop 16)

/-- CBC encryption of `l` (a multiple of 16 bytes) with IV `prev`. -/
def cbcE (e : List Nat → List Nat) (prev l : List Nat) : List Nat := cbcEgo e l.length prev l

/-- CBC decryption, fuelled. -/
def cbcDgo (d : List Nat → List Nat) : Nat → List Nat → List Nat → List Nat
  | 0, _, _ => []
  | k + 1, prev, l =>
    if l = [] then []
    else xorB (d (l.take 16)) prev ++ cbcDgo d k (l.take 16) (l.drop 16)

/-- CBC decryption of ciphertext `l` with IV `prev`. -/
def cbcD (d : List Nat → List Nat) (prev l : List Nat) : List Nat := cbcDgo d l.length prev l

/-- PKCS7 padding to 16-byte blocks: append `n` copies of `n`, `1 ≤ n ≤ 16`. -/
def pkcs7Pad (l : List Nat) : List Nat :=
  l ++ List.replicate (16 - l.length % 16) (16 - l.length % 16)

/-- PKCS7 unpadding as `cryptography`'s unpadder checks it: the input must be a
non-empty multiple of 16 bytes whose last byte `n` is in `[1, 16]` and whose
last `n` bytes all equal `n`. -/
def pkcs7Unpad (l : List Nat) : Option (List Nat) :=
  if l.length = 0 ∨ l.length % 16 ≠ 0 then none
  else
    let n := l.getD (l.length - 1) 0
    if n = 0 ∨ 16 < n then none
    else if l.drop (l.length - n) = List.replicate n n then some (l.take (l.length - n))
    else none

/-- Big-endian 8-byte encoding of the Fernet timestamp (`struct.pack('>Q')`). -/
def be64 (n : Nat) : List Nat :=
  [n / 72057594037927936 % 256, n / 281474976710656 % 256, n / 1099511627776 % 256,
   n / 4294967296 % 256, n / 16777216 % 256, n / 65536 % 256, n / 256 % 256, n % 256]

/-- The keyed primitives of the `cryptography` library that the model leaves
abstract: the AES-128 block permutation (encryption and decryption directions,
key folded in) and HMAC-SHA256 under the signing key. -/
structure Crypto where
  encB : List Nat → List Nat
  decB : List Nat → List Nat
  hmac : List Nat → List Nat

/-- The contract the library guarantees for those primitives: on 16-byte byte
blocks, `decB` inverts `encB` and blocks stay 16-byte byte blocks; HMAC tags
are 32 bytes. -/
def GoodCrypto (C : Crypto) : Prop :=
  (∀ b : List Nat, b.length = 16 → (∀ x ∈ b, x < 256) →
    (C.encB b).length = 16 ∧ (∀ x ∈ C.encB b, x < 256) ∧ C.decB (C.encB b) = b)
  ∧ (∀ m : List Nat, (C.hmac m).length = 32 ∧ ∀ x ∈ C.hmac m, x < 256)

/-- The per-call randomness of `Fernet.encrypt`: current time and fresh IV. -/
structure Fresh where
  ts : Nat
  iv : List Nat

/-- A well-formed IV: 16 bytes. -/
def GoodFresh (f : Fresh) : Prop := f.iv.length = 16 ∧ ∀ x ∈ f.iv, x < 256

/-- The authenticated part of a Fernet token: version byte `0x80`, big-endian
timestamp, IV, CBC ciphertext of the padded plaintext. -/
def fernetBasic (C : Crypto) (f : Fresh) (pt : List Nat) : List Nat :=
  128 :: (be64 f.ts ++ (f.iv ++ cbcE C.encB f.iv (pkcs7Pad pt)))

/-- `Fernet.encrypt` on plaintext bytes: authenticated part plus HMAC tag,
url-safe base64 encoded. -/
def fernetToken (C : Crypto) (f : Fresh) (pt : List Nat) : List Nat :=
  urlsafeB64Encode (fernetBasic C f pt ++ C.hmac (fernetBasic C f pt))

/-- `Fernet.decrypt` (no TTL) on a token byte string; `none` wherever the
library raises (`InvalidToken` on bad base64, version, length, HMAC, block
length or padding; the IV length check is where `cryptography` would raise a
`ValueError` that `decrypt_text` also swallows). -/
def fernetDecrypt (C : Crypto) (tok : List Nat) : Option (List Nat) :=
  (urlsafeB64Decode tok).bind fun data =>
    if data.head? ≠ some 128 then none
    else if data.length < 9 then none
    else if C.hmac (data.take (data.length - 32)) ≠ data.drop (data.length - 32) then none
    else if ((data.drop 9).take 16).length ≠ 16 then none
    else if ((data.take (data.length - 32)).drop 25).length % 16 ≠ 0 then none
    else pkcs7Unpad (cbcD C.decB ((data.drop 9).take 16)
      ((data.take (data.length - 32)).drop 25))

/-! ## `encrypt_text` / `decrypt_text` from `src/app.py` -/

/-- A JSON value a request field can hold (the fields we model are strings or
`null`; an absent key is `Option.none` at the call site). -/
inductive JVal where
  | null : JVal
  | str : PyStr → JVal
deriving DecidableEq

/-- `encrypt_text(text)`: empty or `None` input yields the empty string;
otherwise UTF-8 encode, Fernet-encrypt, and base64-encode the token
(`base64.b64encode(...).decode('utf-8')` — the result is ASCII, so the
code-point list equals the byte list). -/
def encrypt_text (C : Crypto) (f : Fresh) (t : JVal) : PyStr :=
  match t with
  | JVal.null => []
  | JVal.str s => if s = [] then [] else b64Encode (fernetToken C f (utf8Encode s))

/-- The fallible core of `decrypt_text`'s `try` block:
`base64.b64decode(encrypted_text.encode('utf-8'))`, `cipher.decrypt`,
`.decode('utf-8')`. -/
def decryptCore (C : Crypto) (ct : PyStr) : Option PyStr :=
  (b64DecodeBytes (utf8Encode ct)).bind fun tok =>
    (fernetDecrypt C tok).bind fun pt => utf8Decode pt

/-- `decrypt_text(encrypted_text)`: empty input yields the empty string; any
exception in the core is swallowed and replaced by the sentinel. -/
def decrypt_text (C : Crypto) (ct : PyStr) : PyStr :=
  if ct = [] then []
  else
    match decryptCore C ct with
    | some s => s
    | none => sentinel

/-! ## Round-trip lemmas for the cipher pipeline -/

theorem xorB_length (a b : List Nat) : (xorB a b).length = min a.length b.length := by
  simp [xorB]

theorem xorB_lt256 (a b : List Nat) (ha : ∀ x ∈ a, x < 256) (hb : ∀ x ∈ b, x < 256) :
    ∀ x ∈ xorB a b, x < 256 := by
  induction a generalizing b with
  | nil => simp [xorB]
  | cons x xs ih =>
    cases b with
    | nil => simp [xorB]
    | cons y ys =>
      intro z hz
      simp only [xorB, List.zipWith_cons_cons, List.mem_cons] at hz
      rcases hz with rfl | hz
      · have h1 : x < 256 := ha x (by simp)
        have h2 : y < 256 := hb y (by simp)
        calc x ^^^ y < 2 ^ 8 := Nat.xor_lt_two_pow h1 h2
        _ = 256 := by norm_num
      · exact ih ys (fun u hu => ha u (by simp [hu])) (fun u hu => hb u (by simp [hu])) z hz

theorem xorB_xorB (a b : List Nat) (h : a.length = b.length) : xorB (xorB a b) a = b := by
  induction a generalizing b with
  | nil => cases b with
    | nil => rfl
    | cons y ys => simp at h
  | cons x xs ih =>
    cases b with
    | nil => simp at h
    | cons y ys =>
      simp only [xorB, List.zipWith_cons_cons]
      have : (x ^^^ y) ^^^ x = y := by
        rw [Nat.xor_comm x y, Nat.xor_assoc, Nat.xor_self, Nat.xor_zero]
      rw [this]
      have := ih ys (by simpa using h)
      simp only [xorB] at this
      rw [this]

/-- The block-cipher part of `GoodCrypto`, standalone. -/
def GoodBlock (e d : List Nat → List Nat) : Prop :=
  ∀ b : List Nat, b.length = 16 → (∀ x ∈ b, x < 256) →
    (e b).length = 16 ∧ (∀ x ∈ e b, x < 256) ∧ d (e b) = b

theorem cbcDgo_fuel (d : List Nat → List Nat) :
    ∀ k k' prev (l : List Nat), l.length ≤ k → l.length ≤ k' →
      cbcDgo d k prev l = cbcDgo d k' prev l := by
  intro k
  induction k with
  | zero =>
    intro k' prev l hk hk'
    have : l = [] := List.length_eq_zero.mp (by omega)
    subst this
    cases k' <;> simp [cbcDgo]
  | succ k ih =>
    intro k' prev l hk hk'
    cases l with
    | nil => cases k' <;> simp [cbcDgo]
    | cons x xs =>
      cases k' with
      | zero => simp at hk'
      | succ k' =>
        simp only [cbcDgo, if_neg (List.cons_ne_nil x xs)]
        congr 1
        apply ih
        · simp only [List.length_drop, List.length_cons]
          simp only [List.length_cons] at hk
          omega
        · simp only [List.length_drop, List.length_cons]
          simp only [List.length_cons] at hk'
          omega

theorem cbcEgo_length (e d : List Nat → List Nat) (hG : GoodBlock e d) :
    ∀ k prev (l : List Nat), l.length ≤ k → 16 ∣ l.length → (∀ x ∈ l, x < 256) →
      prev.length = 16 → (∀ x ∈ prev, x < 256) →
      (cbcEgo e k prev l).length = l.length ∧ (∀ x ∈ cbcEgo e k prev l, x < 256) := by
  intro k
  induction k with
  | zero =>
    intro prev l hk _ _ _ _
    have : l = [] := List.length_eq_zero.mp (by omega)
    subst this
    simp [cbcEgo]
  | succ k ih =>
    intro prev l hk hdvd hl hprev hprev256
    by_cases hnil : l = []
    · subst hnil; simp [cbcEgo]
    · have hlen : 16 ≤ l.length := by
        rcases hdvd with ⟨m, hm⟩
        have : l.length ≠ 0 := fun h => hnil (List.length_eq_zero.mp h)
        omega
      have htake : (l.take 16).length = 16 := by
        simp [List.length_take]; omega
      have hxlen : (xorB prev (l.take 16)).length = 16 := by
        rw [xorB_length, hprev, htake]; simp
      have hx256 : ∀ x ∈ xorB prev (l.take 16), x < 256 :=
        xorB_lt256 _ _ hprev256 (fun x hx => hl x (List.mem_of_mem_take hx))
      obtain ⟨hclen, hc256, _⟩ := hG _ hxlen hx256
      simp only [cbcEgo, if_neg hnil]
      have hdrop : (l.drop 16).length = l.length - 16 := List.length_drop 16 l
      obtain ⟨ih1, ih2⟩ := ih (e (xorB prev (l.take 16))) (l.drop 16)
        (by simp only [List.length_drop]; omega)
        (by rw [hdrop]; exact (Nat.dvd_sub' hdvd (by norm_num)))
        (fun x hx => hl x (List.mem_of_mem_drop hx)) hclen hc256
      constructor
      · rw [List.length_append, hclen, ih1, hdrop]; omega
      · intro x hx
        rcases List.mem_append.mp hx with h | h
        · exact hc256 x h
        · exact ih2 x h

/-- CBC decryption inverts CBC encryption on full blocks under a good block
cipher. -/
theorem cbcD_cbcE (e d : List Nat → List Nat) (hG : GoodBlock e d) :
    ∀ k prev (l : List Nat), l.length ≤ k → 16 ∣ l.length → (∀ x ∈ l, x < 256) →
      prev.length = 16 → (∀ x ∈ prev, x < 256) →
      cbcD d prev (cbcEgo e k prev l) = l := by
  intro k
  induction k with
  | zero =>
    intro prev l hk _ _ _ _
    have : l = [] := List.length_eq_zero.mp (by omega)
    subst this
    simp [cbcEgo, cbcD, cbcDgo]
  | succ k ih =>
    intro prev l hk hdvd hl hprev hprev256
    by_cases hnil : l = []
    · subst hnil; simp [cbcEgo, cbcD, cbcDgo]
    · have hlen : 16 ≤ l.length := by
        rcases hdvd with ⟨m, hm⟩
        have : l.length ≠ 0 := fun h => hnil (List.length_eq_zero.mp h)
        omega
      have htake : (l.take 16).length = 16 := by
        simp [List.length_take]; omega
      have hxlen : (xorB prev (l.take 16)).length = 16 := by
        rw [xorB_length, hprev, htake]; simp
      have hx256 : ∀ x ∈ xorB prev (l.take 16), x < 256 :=
        xorB_lt256 _ _ hprev256 (fun x hx => hl x (List.mem_of_mem_take hx))
      obtain ⟨hclen, hc256, hinv⟩ := hG _ hxlen hx256
      set c := e (xorB prev (l.take 16)) with hc
      set R := cbcEgo e k c (l.drop 16) with hR
      have hdrop : (l.drop 16).length = l.length - 16 := List.length_drop 16 l
      have hRdvd : 16 ∣ (l.drop 16).length := by
        rw [hdrop]; exact Nat.dvd_sub' hdvd (by norm_num)
      have hRlen : R.length = (l.drop 16).length ∧ ∀ x ∈ R, x < 256 :=
        cbcEgo_length e d hG k c (l.drop 16)
          (by simp only [List.length_drop]; omega) hRdvd
          (fun x hx => hl x (List.mem_of_mem_drop hx)) hclen hc256
      have hstep : cbcEgo e (k + 1) prev l = c ++ R := by
        simp only [cbcEgo, if_neg hnil]
      rw [hstep]
      have hclen' : (c ++ R).length = 16 + R.length := by
        rw [List.length_append, hclen]
      have hne : c ++ R ≠ [] := by
        intro h
        have h2 := congrArg List.length h
        rw [hclen'] at h2
        simp only [List.length_nil] at h2
        omega
      unfold cbcD
      have hfuel : (c ++ R).length = 16 + R.length := hclen'
      rw [hfuel]
      have : 16 + R.length = (15 + R.length) + 1 := by omega
      rw [this]
      simp only [cbcDgo, if_neg hne]
      have htakec : (c ++ R).take 16 = c := by
        rw [← hclen]; exact List.take_left c R
      have hdropc : (c ++ R).drop 16 = R := by
        rw [← hclen]; exact List.drop_left c R
      rw [htakec, hdropc, hinv, xorB_xorB prev (l.take 16) (by omega)]
      have hrest : cbcDgo d (15 + R.length) c R = l.drop 16 := by
        have h1 : cbcDgo d (15 + R.length) c R = cbcDgo d R.length c R :=
          cbcDgo_fuel d _ _ c R (by omega) le_rfl
        have h2 : cbcD d c R = l.drop 16 :=
          ih c (l.drop 16) (by simp only [List.length_drop]; omega) hRdvd
            (fun x hx => hl x (List.mem_of_mem_drop hx)) hclen hc256
        unfold cbcD at h2
        rw [h1]
        rw [hRlen.1] at h2 ⊢
        exact h2
      rw [hrest, List.take_append_drop]

theorem pkcs7Pad_length (l : List Nat) :
    (pkcs7Pad l).length = l.length + (16 - l.length % 16) := by
  simp [pkcs7Pad]

theorem pkcs7Pad_dvd (l : List Nat) : 16 ∣ (pkcs7Pad l).length := by
  rw [pkcs7Pad_length]
  have : l.length % 16 < 16 := Nat.mod_lt _ (by norm_num)
  obtain ⟨q, hq⟩ : ∃ q, l.length = 16 * q + l.length % 16 :=
    ⟨l.length / 16, by omega⟩
  exact ⟨q + 1, by omega⟩

theorem pkcs7Pad_lt256 (l : List Nat) (h : ∀ x ∈ l, x < 256) :
    ∀ x ∈ pkcs7Pad l, x < 256 := by
  intro x hx
  rcases List.mem_append.mp hx with h1 | h1
  · exact h x h1
  · have := List.eq_of_mem_replicate h1
    subst this
    have : l.length % 16 < 16 := Nat.mod_lt _ (by norm_num)
    omega

/-- PKCS7 unpadding undoes padding. -/
theorem pkcs7Unpad_pad (l : List Nat) : pkcs7Unpad (pkcs7Pad l) = some l := by
  have hmod : l.length % 16 < 16 := Nat.mod_lt _ (by norm_num)
  set n := 16 - l.length % 16 with hn
  have hn1 : 1 ≤ n := by omega
  have hn16 : n ≤ 16 := by omega
  have hlen : (pkcs7Pad l).length = l.length + n := by
    rw [pkcs7Pad_length]
  have hdvd := pkcs7Pad_dvd l
  have hne0 : ¬ ((pkcs7Pad l).length = 0 ∨ (pkcs7Pad l).length % 16 ≠ 0) := by
    push_neg
    constructor
    · omega
    · rcases hdvd with ⟨q, hq⟩; omega
  unfold pkcs7Unpad
  rw [if_neg hne0]
  have hidx : (pkcs7Pad l).length - 1 = l.length + (n - 1) := by omega
  have hgetD : (pkcs7Pad l).getD ((pkcs7Pad l).length - 1) 0 = n := by
    rw [hidx]
    unfold pkcs7Pad
    rw [List.getD_eq_getElem?_getD, List.getElem?_append_right (by omega)]
    have he : l.length + (n - 1) - l.length = n - 1 := by omega
    rw [he, List.getElem?_replicate, if_pos (by omega)]
    rfl
  simp only [hgetD]
  rw [if_neg (by omega)]
  have hdroplen : (pkcs7Pad l).length - n = l.length := by omega
  have hdrop : (pkcs7Pad l).drop ((pkcs7Pad l).length - n) = List.replicate n n := by
    rw [hdroplen]
    unfold pkcs7Pad
    exact List.drop_left l _
  rw [if_pos hdrop, hdroplen]
  unfold pkcs7Pad
  rw [List.take_left]

theorem be64_length (n : Nat) : (be64 n).length = 8 := by simp [be64]

theorem be64_lt256 (n : Nat) : ∀ x ∈ be64 n, x < 256 := by
  intro x hx
  simp only [be64, List.mem_cons, List.not_mem_nil, or_false] at hx
  rcases hx with rfl | rfl | rfl | rfl | rfl | rfl | rfl | rfl <;>
    exact Nat.mod_lt _ (by norm_num)

/-- All bytes of the raw token (authenticated part plus tag) are bytes. -/
theorem fernetData_lt256 (C : Crypto) (f : Fresh) (pt : List Nat)
    (hC : GoodCrypto C) (hf : GoodFresh f) (hpt : ∀ b ∈ pt, b < 256) :
    ∀ x ∈ fernetBasic C f pt ++ C.hmac (fernetBasic C f pt), x < 256 := by
  obtain ⟨hivlen, hiv256⟩ := hf
  have hcbc := cbcEgo_length C.encB C.decB hC.1 (pkcs7Pad pt).length f.iv (pkcs7Pad pt)
    le_rfl (pkcs7Pad_dvd pt) (pkcs7Pad_lt256 pt hpt) hivlen hiv256
  intro x hx
  rcases List.mem_append.mp hx with h | h
  · simp only [fernetBasic, List.mem_cons] at h
    rcases h with rfl | h
    · norm_num
    · rcases List.mem_append.mp h with h | h
      · exact be64_lt256 _ x h
      · rcases List.mem_append.mp h with h | h
        · exact hiv256 x h
        · exact hcbc.2 x h
  · exact (hC.2 (fernetBasic C f pt)).2 x h

/-- `Fernet.decrypt` inverts `Fernet.encrypt` on byte plaintexts. -/
theorem fernetDecrypt_fernetToken (C : Crypto) (f : Fresh) (pt : List Nat)
    (hC : GoodCrypto C) (hf : GoodFresh f) (hpt : ∀ b ∈ pt, b < 256) :
    fernetDecrypt C (fernetToken C f pt) = some pt := by
  obtain ⟨hivlen, hiv256⟩ := hf
  set basic := fernetBasic C f pt with hbasic
  set tag := C.hmac basic with htag
  have htaglen : tag.length = 32 := (hC.2 basic).1
  have hcbc := cbcEgo_length C.encB C.decB hC.1 (pkcs7Pad pt).length f.iv (pkcs7Pad pt)
    le_rfl (pkcs7Pad_dvd pt) (pkcs7Pad_lt256 pt hpt) hivlen hiv256
  set cbcOut := cbcE C.encB f.iv (pkcs7Pad pt) with hcbcOut
  have hcbclen : cbcOut.length = (pkcs7Pad pt).length := hcbc.1
  have hcbcpos : 16 ≤ cbcOut.length := by
    rw [hcbclen, pkcs7Pad_length]
    have : pt.length % 16 < 16 := Nat.mod_lt _ (by norm_num)
    have h2 : pt.length % 16 ≤ pt.length := Nat.mod_le _ _
    omega
  have hbasiclen : basic.length = 25 + cbcOut.length := by
    rw [hbasic]
    simp only [fernetBasic, List.length_cons, List.length_append, be64_length, hivlen]
    rw [← hcbcOut]
    omega
  have hdata256 : ∀ x ∈ basic ++ tag, x < 256 :=
    fernetData_lt256 C f pt hC ⟨hivlen, hiv256⟩ hpt
  have hdec : urlsafeB64Decode (fernetToken C f pt) = some (basic ++ tag) := by
    unfold fernetToken
    exact urlsafeB64Decode_encode _ hdata256
  have hdatalen : (basic ++ tag).length = basic.length + 32 := by
    rw [List.length_append, htaglen]
  have hhead : (basic ++ tag).head? = some 128 := by
    rw [hbasic]
    simp [fernetBasic]
  have hsub : (basic ++ tag).length - 32 = basic.length := by omega
  have hbody : (basic ++ tag).take ((basic ++ tag).length - 32) = basic := by
    rw [hsub]; exact List.take_left basic tag
  have htagpart : (basic ++ tag).drop ((basic ++ tag).length - 32) = tag := by
    rw [hsub]; exact List.drop_left basic tag
  have hgroup1 : basic ++ tag = (128 :: be64 f.ts) ++ (f.iv ++ (cbcOut ++ tag)) := by
    rw [hbasic]
    simp only [fernetBasic, ← hcbcOut, List.cons_append, List.append_assoc]
  have hdrop9 : (basic ++ tag).drop 9 = f.iv ++ (cbcOut ++ tag) := by
    rw [hgroup1]
    have h9 : (128 :: be64 f.ts).length = 9 := by simp [be64]
    rw [← h9]
    exact List.drop_left _ _
  have hiv : ((basic ++ tag).drop 9).take 16 = f.iv := by
    rw [hdrop9, ← hivlen]
    exact List.take_left _ _
  have hgroup2 : basic = (128 :: (be64 f.ts ++ f.iv)) ++ cbcOut := by
    rw [hbasic]
    simp only [fernetBasic, ← hcbcOut, List.cons_append, List.append_assoc]
  have hct : basic.drop 25 = cbcOut := by
    rw [hgroup2]
    have h25 : (128 :: (be64 f.ts ++ f.iv)).length = 25 := by
      simp [be64_length, hivlen]
    rw [← h25]
    exact List.drop_left _ _
  have hctdvd : cbcOut.length % 16 = 0 := by
    rw [hcbclen]
    rcases pkcs7Pad_dvd pt with ⟨q, hq⟩
    omega
  have hinv : cbcD C.decB f.iv cbcOut = pkcs7Pad pt := by
    rw [hcbcOut]
    unfold cbcE
    exact cbcD_cbcE C.encB C.decB hC.1 (pkcs7Pad pt).length f.iv (pkcs7Pad pt)
      le_rfl (pkcs7Pad_dvd pt) (pkcs7Pad_lt256 pt hpt) hivlen hiv256
  unfold fernetDecrypt
  simp only [hdec, Option.some_bind]
  rw [hbody, htagpart, hiv, hct]
  rw [if_neg (by rw [hhead]; exact fun h => h rfl)]
  rw [if_neg (by omega)]
  rw [if_neg (fun h => h rfl)]
  rw [if_neg (by rw [hivlen]; exact fun h => h rfl)]
  rw [if_neg (by simp [hctdvd])]
  rw [hinv, pkcs7Unpad_pad]

theorem encrypt_text_ne_nil (C : Crypto) (f : Fresh) (s : PyStr) (hs : s ≠ []) :
    encrypt_text C f (JVal.str s) ≠ [] := by
  simp only [encrypt_text]
  rw [if_neg hs]
  apply b64EncodeWith_ne_nil
  unfold fernetToken
  apply b64EncodeWith_ne_nil
  simp [fernetBasic]

theorem fernetToken_lt128 (C : Crypto) (f : Fresh) (pt : List Nat)
    (hC : GoodCrypto C) (hf : GoodFresh f) (hpt : ∀ b ∈ pt, b < 256) :
    ∀ c ∈ fernetToken C f pt, c < 128 := by
  unfold fernetToken
  exact b64EncodeWith_mem_lt128 b64uChar b64uChar_lt128 _
    (fernetData_lt256 C f pt hC hf hpt)

/-- The decryption core succeeds on an encryption of a valid non-empty string
and recovers it. -/
theorem decryptCore_encrypt (C : Crypto) (f : Fresh) (s : PyStr)
    (hC : GoodCrypto C) (hf : GoodFresh f) (hs : ValidStr s) (hne : s ≠ []) :
    decryptCore C (encrypt_text C f (JVal.str s)) = some s := by
  have hpt := utf8Encode_lt256 s hs
  have htok128 := fernetToken_lt128 C f (utf8Encode s) hC hf hpt
  have htok256 : ∀ c ∈ fernetToken C f (utf8Encode s), c < 256 :=
    fun c hc => lt_trans (htok128 c hc) (by norm_num)
  have hct128 : ∀ c ∈ b64Encode (fernetToken C f (utf8Encode s)), c < 128 :=
    b64EncodeWith_mem_lt128 b64Char b64Char_lt128 _ htok256
  unfold decryptCore
  simp only [encrypt_text]
  rw [if_neg hne]
  rw [utf8Encode_ascii _ hct128]
  rw [b64Decode_b64Encode _ htok256, Option.some_bind]
  rw [fernetDecrypt_fernetToken C f _ hC hf hpt, Option.some_bind]
  exact utf8Decode_encode s hs

/-! ## The repository layer of `src/app.py` (`Note`, CRUD routes) -/

/-- A stored row of the `note` table: auto-assigned integer primary key,
encrypted title and content (text columns), timestamp. -/
structure Note where
  id : Nat
  title_encrypted : PyStr
  content_encrypted : PyStr
  timestamp : Nat
deriving DecidableEq

/-- The JSON view `Note.to_dict` serializes: id, decrypted title and content,
timestamp (the `strftime` formatting of the timestamp is plumbing and the
value is kept abstract as the raw timestamp). -/
structure NoteView where
  id : Nat
  title : PyStr
  content : PyStr
  timestamp : Nat
deriving DecidableEq

/-- `Note.to_dict`: decrypt both fields into the client view. -/
def Note.to_dict (C : Crypto) (n : Note) : NoteView :=
  ⟨n.id, decrypt_text C n.title_encrypted, decrypt_text C n.content_encrypted, n.timestamp⟩

/-- A request body `{title?, content?}`: each key absent, `null`, or a
string — `data.get(key, default)` distinguishes exactly these. -/
structure ReqBody where
  title : Option JVal
  content : Option JVal
deriving DecidableEq

/-- Python `data.get(key, default)`: the stored value if the key is present
(possibly `None`), else the default string. -/
def dictGet (v : Option JVal) (d : PyStr) : JVal := v.getD (JVal.str d)

/-- `Note.from_dict`: encrypt the defaulted title and content
(`data.get('title', 'Untitled')`, `data.get('content', '')`). -/
def Note.from_dict (C : Crypto) (fT fC : Fresh) (data : ReqBody) : PyStr × PyStr :=
  (encrypt_text C fT (dictGet data.title untitled),
   encrypt_text C fC (dictGet data.content []))

/-- The HTTP-level failure the routes can produce (`get_or_404`). -/
inductive ApiError where
  | notFound : ApiError
deriving DecidableEq

/-- SQLite's rowid assignment: one more than the largest existing id. -/
def maxId (db : List Note) : Nat := db.foldr (fun r m => max r.id m) 0

/-- `create_note`: build the record from the body (encrypting via
`from_dict`), insert it with a fresh id and the current time, and return its
decrypted view with status 201. -/
def create_note (C : Crypto) (fT fC : Fresh) (now : Nat) (db : List Note)
    (data : ReqBody) : List Note × NoteView :=
  (db ++ [⟨maxId db + 1, (Note.from_dict C fT fC data).1, (Note.from_dict C fT fC data).2, now⟩],
   Note.to_dict C ⟨maxId db + 1, (Note.from_dict C fT fC data).1,
     (Note.from_dict C fT fC data).2, now⟩)

/-- `update_note`: 404 if the id is absent; otherwise overwrite both encrypted
fields from the body with the same defaulting as create, refresh the
timestamp, and return the updated view. -/
def update_note (C : Crypto) (fT fC : Fresh) (now : Nat) (db : List Note)
    (id : Nat) (data : ReqBody) : List Note × Except ApiError NoteView :=
  match db.find? (fun x => x.id == id) with
  | none => (db, Except.error ApiError.notFound)
  | some _ =>
    (db.map fun x =>
      if x.id = id then
        { x with
          title_encrypted := encrypt_text C fT (dictGet data.title untitled),
          content_encrypted := encrypt_text C fC (dictGet data.content []),
          timestamp := now }
      else x,
     Except.ok (Note.to_dict C ⟨id, encrypt_text C fT (dictGet data.title untitled),
       encrypt_text C fC (dictGet data.content []), now⟩))

/-- `delete_note`: 404 if the id is absent; otherwise remove the record (the
id is a primary key, so the record with that id). -/
def delete_note (db : List Note) (id : Nat) : List Note × Except ApiError Unit :=
  match db.find? (fun x => x.id == id) with
  | none => (db, Except.error ApiError.notFound)
  | some _ => (db.filter (fun x => !(x.id == id)), Except.ok ())

/-- Insert a record into a timestamp-descending list, after any record with an
equal or larger timestamp (so earlier rows stay first on ties). -/
def insertDesc (r : Note) : List Note → List Note
  | [] => [r]
  | x :: xs => if x.timestamp ≤ r.timestamp then r :: x :: xs else x :: insertDesc r xs

/-- Stable sort by timestamp descending — the model of
`Note.query.order_by(Note.timestamp.desc()).all()`.  Modelled from the spec:
SQL leaves the relative order of equal timestamps to the database engine
(code outside `src/`); the spec fixes it to insertion order (a stable sort),
which this insertion sort implements.  The descending ordering itself is what
`order_by(...desc())` requests. -/
def sortDesc : List Note → List Note
  | [] => []
  | r :: rest => insertDesc r (sortDesc rest)

/-- `get_notes` (GET /api/notes): all notes, newest first, decrypted. -/
def get_notes (C : Crypto) (db : List Note) : List NoteView :=
  (sortDesc db).map (Note.to_dict C)

/-- `health_check`'s note count (`Note.query.count()`). -/
def count_notes (db : List Note) : Nat := db.length

/-- The storage states reachable through the API from an empty table, with
every request body satisfying `P`; the crypto instance, randomness, times,
ids and bodies vary freely across steps. -/
inductive Reachable (P : ReqBody → Prop) : List Note → Prop
  | empty : Reachable P []
  | create (db : List Note) (C : Crypto) (fT fC : Fresh) (now : Nat) (data : ReqBody) :
      Reachable P db → P data → Reachable P (create_note C fT fC now db data).1
  | update (db : List Note) (C : Crypto) (fT fC : Fresh) (now : Nat) (id : Nat)
      (data : ReqBody) :
      Reachable P db → P data → Reachable P (update_note C fT fC now db id data).1
  | delete (db : List Note) (id : Nat) :
      Reachable P db → Reachable P (delete_note db id).1

/-! ## Sorting lemmas and a concrete cipher instance for witnesses -/

theorem mem_insertDesc (r y : Note) : ∀ l, y ∈ insertDesc r l ↔ y = r ∨ y ∈ l
  | [] => by simp [insertDesc]
  | x :: xs => by
    rw [insertDesc]
    split_ifs with h
    · simp only [List.mem_cons]
    · simp only [List.mem_cons, mem_insertDesc r y xs]
      tauto

theorem insertDesc_pairwise (r : Note) (l : List Note)
    (h : l.Pairwise fun a b => b.timestamp ≤ a.timestamp) :
    (insertDesc r l).Pairwise fun a b => b.timestamp ≤ a.timestamp := by
  induction l with
  | nil => simp [insertDesc]
  | cons x xs ih =>
    rw [insertDesc]
    obtain ⟨hx, hxs⟩ := List.pairwise_cons.mp h
    split_ifs with hle
    · refine List.pairwise_cons.mpr ⟨?_, h⟩
      intro y hy
      rcases List.mem_cons.mp hy with rfl | hy
      · exact hle
      · exact le_trans (hx y hy) hle
    · refine List.pairwise_cons.mpr ⟨?_, ih hxs⟩
      intro y hy
      rcases (mem_insertDesc r y xs).mp hy with rfl | hy
      · omega
      · exact hx y hy

theorem sortDesc_pairwise : ∀ l : List Note,
    (sortDesc l).Pairwise fun a b => b.timestamp ≤ a.timestamp
  | [] => by simp [sortDesc]
  | x :: xs => by
    rw [sortDesc]
    exact insertDesc_pairwise x (sortDesc xs) (sortDesc_pairwise xs)

theorem filter_insertDesc (r : Note) (t : Nat) :
    ∀ l : List Note, (insertDesc r l).filter (fun x => x.timestamp == t) =
      if r.timestamp = t then r :: l.filter (fun x => x.timestamp == t)
      else l.filter (fun x => x.timestamp == t)
  | [] => by
    rw [insertDesc]
    by_cases hr : r.timestamp = t
    · rw [if_pos hr]
      simp [List.filter_cons, hr]
    · rw [if_neg hr]
      simp [List.filter_cons, hr]
  | x :: xs => by
    rw [insertDesc]
    by_cases hle : x.timestamp ≤ r.timestamp
    · rw [if_pos hle]
      by_cases hr : r.timestamp = t
      · rw [if_pos hr]
        simp [List.filter_cons, hr]
      · rw [if_neg hr]
        simp [List.filter_cons, hr]
    · rw [if_neg hle]
      by_cases hr : r.timestamp = t
      · rw [if_pos hr]
        have hxt : ¬ x.timestamp = t := by omega
        simp [List.filter_cons, hxt, filter_insertDesc r t xs, hr]
      · rw [if_neg hr]
        simp [List.filter_cons, filter_insertDesc r t xs, hr]

theorem filter_sortDesc (t : Nat) :
    ∀ l : List Note, (sortDesc l).filter (fun x => x.timestamp == t) =
      l.filter (fun x => x.timestamp == t)
  | [] => rfl
  | x :: xs => by
    rw [sortDesc, filter_insertDesc, filter_sortDesc t xs, List.filter_cons]
    by_cases hx : x.timestamp = t
    · rw [if_pos hx]
      simp [hx]
    · rw [if_neg hx]
      simp [hx]

/-- A concrete instance of the abstract primitives, used to evaluate the
pipeline on closed inputs: identity block permutation, all-zero MAC. -/
def toyCrypto : Crypto := ⟨id, id, fun _ => List.replicate 32 0⟩

/-- A concrete fresh-randomness value: time 0, all-zero IV. -/
def toyFresh : Fresh := ⟨0, List.replicate 16 0⟩

theorem toyCrypto_good : GoodCrypto toyCrypto := by
  constructor
  · intro b hlen hb
    exact ⟨hlen, hb, rfl⟩
  · intro m
    refine ⟨by simp [toyCrypto], ?_⟩
    intro x hx
    have := List.eq_of_mem_replicate hx
    omega

theorem toyFresh_good : GoodFresh toyFresh := by
  constructor
  · simp [toyFresh]
  · intro x hx
    have := List.eq_of_mem_replicate hx
    omega

/-- Full round trip of `decrypt_text` after `encrypt_text` on a non-empty
valid string. -/
theorem decrypt_text_encrypt_helper (C : Crypto) (f : Fresh) (s : PyStr)
    (hC : GoodCrypto C) (hf : GoodFresh f) (hs : ValidStr s) (hne : s ≠ []) :
    decrypt_text C (encrypt_text C f (JVal.str s)) = s := by
  unfold decrypt_text
  rw [if_neg (encrypt_text_ne_nil C f s hne)]
  rw [decryptCore_encrypt C f s hC hf hs hne]

/-! ## Claim theorems -/

/-- C1: for every non-empty string `s`, decrypting the result of encrypting
`s` with the same key returns `s`: `decrypt_text(encrypt_text(s)) == s`.
`GoodCrypto`/`GoodFresh` are the properties the `cryptography` library
guarantees for its AES block permutation, HMAC and IV; `ValidStr` says `s` is
a sequence of Unicode scalar values, which every Python `str` arriving
through JSON is. -/
theorem c1_decrypt_encrypt_roundtrip (C : Crypto) (f : Fresh) (s : PyStr)
    (hC : GoodCrypto C) (hf : GoodFresh f) (hs : ValidStr s) (hne : s ≠ []) :
    decrypt_text C (encrypt_text C f (JVal.str s)) = s :=
  decrypt_text_encrypt_helper C f s hC hf hs hne

theorem c1_witness :
    GoodCrypto toyCrypto ∧ GoodFresh toyFresh ∧ ValidStr [104] ∧ ([104] : PyStr) ≠ [] ∧
      decrypt_text toyCrypto (encrypt_text toyCrypto toyFresh (JVal.str [104])) = [104] :=
  ⟨toyCrypto_good, toyFresh_good, by decide, by decide,
    c1_decrypt_encrypt_roundtrip toyCrypto toyFresh [104] toyCrypto_good toyFresh_good
      (by decide) (by decide)⟩

/-- C2: `decrypt_text` never raises: it is a total function, and on any
non-empty input whose fallible core fails (malformed base64, bad token,
failed authentication, bad padding, non-UTF-8 plaintext) it returns exactly
the sentinel `'[Decryption Error]'`; `Note.to_dict` on a record whose content
field is corrupted still succeeds, substituting the sentinel in that field
only while the other fields are produced normally. -/
theorem c2_decrypt_failsoft (C : Crypto) (ct : PyStr) (n : Note)
    (hct : ct ≠ []) (hfail : decryptCore C ct = none)
    (hcn : decryptCore C n.content_encrypted = none) (hne : n.content_encrypted ≠ []) :
    decrypt_text C ct = sentinel ∧
      Note.to_dict C n = ⟨n.id, decrypt_text C n.title_encrypted, sentinel, n.timestamp⟩ := by
  have hsent : ∀ c : PyStr, c ≠ [] → decryptCore C c = none → decrypt_text C c = sentinel := by
    intro c h1 h2
    unfold decrypt_text
    rw [if_neg h1, h2]
  refine ⟨hsent ct hct hfail, ?_⟩
  unfold Note.to_dict
  rw [hsent n.content_encrypted hne hcn]

theorem c2_witness :
    ([33] : PyStr) ≠ [] ∧ decryptCore toyCrypto [33] = none ∧
      decrypt_text toyCrypto [33] = sentinel ∧
      Note.to_dict toyCrypto ⟨7, [], [33], 4⟩ =
        ⟨7, decrypt_text toyCrypto [], sentinel, 4⟩ := by
  have h := c2_decrypt_failsoft toyCrypto [33] ⟨7, [], [33], 4⟩
    (by decide) (by decide) (by decide) (by decide)
  exact ⟨by decide, by decide, h.1, h.2⟩

/-- C9: empty-input identity: `encrypt_text` maps the empty string (and
`None`) to the empty string without entering the cipher pipeline,
`decrypt_text` maps the empty string to the empty string, and a record with
an empty stored ciphertext yields an empty view field. -/
theorem c9_empty_identity (C : Crypto) (f : Fresh) (n : Note) :
    encrypt_text C f (JVal.str []) = [] ∧ encrypt_text C f JVal.null = [] ∧
      decrypt_text C [] = [] ∧
      (Note.to_dict C { n with content_encrypted := [] }).content = [] ∧
      (Note.to_dict C { n with title_encrypted := [] }).title = [] :=
  ⟨rfl, rfl, rfl, rfl, rfl⟩

/-- The ciphertext of the one-character string `'a'` under the concrete
instance (136 base64 characters, ending `...PQ==`). -/
def c3ct : PyStr := encrypt_text toyCrypto toyFresh (JVal.str [97])

/-- `c3ct` with the single byte at index 133 flipped: `'Q'` (81) becomes
`'S'` (83), one bit changed.  Both characters carry the same two payload
bits of the final base64 group, so the decoded bytes are unchanged. -/
def c3ct' : PyStr := c3ct.set 133 83

set_option maxRecDepth 4096 in
/-- C3 counterexample: flipping the single byte at index 133 of a valid
ciphertext of `'a'` (from 81 to 83 — a one-bit change inside one byte)
produces a different ciphertext string that `decrypt_text` still decrypts to
`'a'` itself, not to the failure sentinel: the final base64 data character's
low bits are ignored by `binascii`, so the decoded token is unchanged.  This
refutes "flipping any single byte of c causes decrypt_text to return the
failure sentinel". -/
theorem c3_counterexample :
    GoodCrypto toyCrypto ∧ GoodFresh toyFresh ∧ ValidStr [97] ∧ ([97] : PyStr) ≠ [] ∧
      c3ct = encrypt_text toyCrypto toyFresh (JVal.str [97]) ∧
      c3ct' = c3ct.set 133 83 ∧ c3ct.getD 133 0 = 81 ∧ 133 < c3ct.length ∧
      c3ct' ≠ c3ct ∧ c3ct'.length = c3ct.length ∧
      decrypt_text toyCrypto c3ct' = [97] ∧ decrypt_text toyCrypto c3ct' ≠ sentinel :=
  ⟨toyCrypto_good, toyFresh_good, by decide, by decide, rfl, rfl, by decide, by decide,
    by decide, by decide, by decide, by decide⟩

/-- C3 (amended): what the code guarantees about single-byte flips.  (a) A
modified ciphertext string whose base64 decoding equals that of the original
decrypts to exactly what the original decrypts to — for a flip of a valid
ciphertext of `s` this is `s` itself, never the sentinel (this is the case
the counterexample exhibits).  (b) Any modified string whose decoded token
fails HMAC verification (which, for the library's HMAC, is every flip that
changes the authenticated token bytes, up to MAC forgery) makes
`decrypt_text` return the failure sentinel, never a different valid-looking
plaintext. -/
theorem c3_tamper_amended (C : Crypto) (ct ct' : PyStr) :
    (ct' ≠ [] → ct ≠ [] →
      b64DecodeBytes (utf8Encode ct') = b64DecodeBytes (utf8Encode ct) →
      decrypt_text C ct' = decrypt_text C ct) ∧
    (∀ tok data : List Nat, ct' ≠ [] →
      b64DecodeBytes (utf8Encode ct') = some tok →
      urlsafeB64Decode tok = some data →
      data.head? = some 128 → ¬ data.length < 9 →
      C.hmac (data.take (data.length - 32)) ≠ data.drop (data.length - 32) →
      decrypt_text C ct' = sentinel) := by
  constructor
  · intro h1 h2 heq
    unfold decrypt_text decryptCore
    rw [if_neg h1, if_neg h2, heq]
  · intro tok data h1 htok hdata hhead hlen hmacfail
    unfold decrypt_text
    rw [if_neg h1]
    unfold decryptCore
    rw [htok, Option.some_bind]
    unfold fernetDecrypt
    rw [hdata, Option.some_bind]
    rw [if_neg (by rw [hhead]; exact fun h => h rfl)]
    rw [if_neg hlen]
    rw [if_pos hmacfail]
    rfl

/-- A token whose authenticated part is intact (version byte, length) but
whose 32-byte tag is all ones, so HMAC verification fails under the concrete
instance (whose MAC is all zeros). -/
def c3data : List Nat := 128 :: (List.replicate 40 0 ++ List.replicate 32 1)

/-- The string `decrypt_text` would receive for that forged token. -/
def c3ctBad : PyStr := b64Encode (urlsafeB64Encode c3data)

set_option maxRecDepth 4096 in
theorem c3_witness :
    decrypt_text toyCrypto c3ct' = decrypt_text toyCrypto c3ct ∧
      decrypt_text toyCrypto c3ctBad = sentinel :=
  ⟨(c3_tamper_amended toyCrypto c3ct c3ct').1 (by decide) (by decide) (by decide),
   (c3_tamper_amended toyCrypto c3ctBad c3ctBad).2 (urlsafeB64Encode c3data) c3data
     (by decide) (by decide) (by decide) (by decide) (by decide) (by decide)⟩

/-- C4: for an existing id, `update_note` returns 200 with the view of a
record carrying the defaulted request fields (same rule as create: absent
title becomes `'Untitled'`, absent content becomes the empty string — the
previous values are discarded) and the refreshed timestamp; in storage, the
record with that id is rewritten to exactly those fields and every other
record is unchanged. -/
theorem c4_update_rewrites (C : Crypto) (fT fC : Fresh) (now : Nat)
    (db : List Note) (id : Nat) (data : ReqBody) (r : Note)
    (hfind : db.find? (fun x => x.id == id) = some r) :
    (update_note C fT fC now db id data).2 =
      Except.ok (Note.to_dict C ⟨id, encrypt_text C fT (dictGet data.title untitled),
        encrypt_text C fC (dictGet data.content []), now⟩) ∧
    (update_note C fT fC now db id data).1 =
      db.map (fun x =>
        if x.id = id then
          { x with
            title_encrypted := encrypt_text C fT (dictGet data.title untitled),
            content_encrypted := encrypt_text C fC (dictGet data.content []),
            timestamp := now }
        else x) ∧
    (∀ x ∈ db, x.id ≠ id → x ∈ (update_note C fT fC now db id data).1) := by
  unfold update_note
  rw [hfind]
  refine ⟨rfl, rfl, ?_⟩
  intro x hx hne
  exact List.mem_map.mpr ⟨x, hx, by rw [if_neg hne]⟩

/-- A one-record store used by several witnesses. -/
def c4db : List Note := [⟨1, [], [], 0⟩]

theorem c4_witness :
    (update_note toyCrypto toyFresh toyFresh 5 c4db 1 ⟨none, none⟩).1 =
      c4db.map (fun x =>
        if x.id = 1 then
          { x with
            title_encrypted := encrypt_text toyCrypto toyFresh (dictGet none untitled),
            content_encrypted := encrypt_text toyCrypto toyFresh (dictGet none []),
            timestamp := 5 }
        else x) :=
  (c4_update_rewrites toyCrypto toyFresh toyFresh 5 c4db 1 ⟨none, none⟩ ⟨1, [], [], 0⟩
    (by decide)).2.1

/-- C5: for an id absent from storage — in particular any id whose record was
deleted — `update_note` and `delete_note` both fail with NotFound and leave
the store exactly as it was; and a successful `delete_note` removes the id
from the store, so both calls fail afterwards. -/
theorem c5_lifecycle_notfound (db : List Note) (id : Nat)
    (habs : ∀ r ∈ db, r.id ≠ id) :
    (∀ (C : Crypto) (fT fC : Fresh) (now : Nat) (data : ReqBody),
      update_note C fT fC now db id data = (db, Except.error ApiError.notFound)) ∧
    delete_note db id = (db, Except.error ApiError.notFound) ∧
    (∀ (db2 : List Note) (id2 : Nat), (delete_note db2 id2).2 = Except.ok () →
      ∀ r ∈ (delete_note db2 id2).1, r.id ≠ id2) := by
  have hnone : db.find? (fun x => x.id == id) = none := by
    rw [List.find?_eq_none]
    intro x hx
    simpa using habs x hx
  refine ⟨?_, ?_, ?_⟩
  · intro C fT fC now data
    unfold update_note
    rw [hnone]
  · unfold delete_note
    rw [hnone]
  · intro db2 id2 hok r hr
    unfold delete_note at hok hr
    cases hfind : db2.find? (fun x => x.id == id2) with
    | none =>
      rw [hfind] at hok
      simp at hok
    | some y =>
      rw [hfind] at hr
      have hmem := List.mem_filter.mp hr
      simpa using hmem.2

theorem c5_witness :
    update_note toyCrypto toyFresh toyFresh 9 c4db 2 ⟨none, none⟩ =
      (c4db, Except.error ApiError.notFound) ∧
    delete_note c4db 2 = (c4db, Except.error ApiError.notFound) ∧
    ¬ (⟨1, [], [], 0⟩ : Note) ∈ (delete_note c4db 1).1 := by
  have h := c5_lifecycle_notfound c4db 2 (by decide)
  refine ⟨h.1 toyCrypto toyFresh toyFresh 9 ⟨none, none⟩, h.2.1, ?_⟩
  intro hmem
  exact h.2.2 c4db 1 rfl _ hmem rfl

/-- C6: `create_note` with both keys absent stores and returns the literal
`'Untitled'` title and empty content; the assigned id (`maxId + 1`, SQLite's
rowid rule) and the timestamp are returned in the view, and the stored record
holds the encrypted title and the empty content ciphertext. -/
theorem c6_create_defaults (C : Crypto) (fT fC : Fresh) (now : Nat) (db : List Note)
    (hC : GoodCrypto C) (hfT : GoodFresh fT) :
    (create_note C fT fC now db ⟨none, none⟩).2.title = untitled ∧
    (create_note C fT fC now db ⟨none, none⟩).2.content = [] ∧
    (create_note C fT fC now db ⟨none, none⟩).2.id = maxId db + 1 ∧
    (create_note C fT fC now db ⟨none, none⟩).2.timestamp = now ∧
    (create_note C fT fC now db ⟨none, none⟩).1 =
      db ++ [⟨maxId db + 1, encrypt_text C fT (JVal.str untitled), [], now⟩] := by
  refine ⟨?_, rfl, rfl, rfl, rfl⟩
  show decrypt_text C (encrypt_text C fT (JVal.str untitled)) = untitled
  exact decrypt_text_encrypt_helper C fT untitled hC hfT (by decide) (by decide)

theorem c6_witness :
    GoodCrypto toyCrypto ∧ GoodFresh toyFresh ∧
      (create_note toyCrypto toyFresh toyFresh 3 [] ⟨none, none⟩).2.title = untitled ∧
      (create_note toyCrypto toyFresh toyFresh 3 [] ⟨none, none⟩).2.content = [] ∧
      (create_note toyCrypto toyFresh toyFresh 3 [] ⟨none, none⟩).2.id = 1 ∧
      (create_note toyCrypto toyFresh toyFresh 3 [] ⟨none, none⟩).2.timestamp = 3 := by
  have h := c6_create_defaults toyCrypto toyFresh toyFresh 3 [] toyCrypto_good toyFresh_good
  exact ⟨toyCrypto_good, toyFresh_good, h.1, h.2.1, h.2.2.1, h.2.2.2.1⟩

/-- Three notes created A then B then C at strictly increasing times 1, 2, 3
(ids 1, 2, 3). -/
def c7db : List Note :=
  (create_note toyCrypto toyFresh toyFresh 3
    ((create_note toyCrypto toyFresh toyFresh 2
      ((create_note toyCrypto toyFresh toyFresh 1 [] ⟨none, none⟩).1) ⟨none, none⟩).1)
    ⟨none, none⟩).1

set_option maxRecDepth 8192 in
/-- C7: `get_notes` returns the views sorted by timestamp descending, and
notes with equal timestamps keep their insertion order (filtering the result
to any fixed timestamp gives exactly the store's records with that timestamp,
in store order); in particular creating A, B, C at strictly increasing
timestamps lists ids [3, 2, 1]. -/
theorem c7_list_notes_sorted_stable (C : Crypto) (db : List Note) :
    (get_notes C db).Pairwise (fun a b => b.timestamp ≤ a.timestamp) ∧
    (∀ t : Nat, (get_notes C db).filter (fun v => v.timestamp == t) =
      (db.map (Note.to_dict C)).filter (fun v => v.timestamp == t)) ∧
    (get_notes toyCrypto c7db).map (fun v => v.id) = [3, 2, 1] := by
  refine ⟨?_, ?_, by decide⟩
  · unfold get_notes
    exact List.Pairwise.map (Note.to_dict C) (fun a b h => h) (sortDesc_pairwise db)
  · intro t
    unfold get_notes
    rw [List.filter_map, List.filter_map]
    congr 1
    exact filter_sortDesc t db

/-- The store after `create_note` with the body `{title: ""}`: the stored
`title_encrypted` is empty. -/
def c8db : List Note :=
  (create_note toyCrypto toyFresh toyFresh 0 [] ⟨some (JVal.str []), none⟩).1

/-- C8 counterexample: a reachable state (one `create_note` call whose body
holds the empty-string title) stores a record whose `title_encrypted` is the
empty string — `encrypt_text('') == ''` — so the invariant "every stored
`title_encrypted` is a non-empty ciphertext" fails. -/
theorem c8_counterexample :
    Reachable (fun _ => True) c8db ∧
      c8db.any (fun r => r.title_encrypted.isEmpty) = true := by
  constructor
  · exact Reachable.create [] toyCrypto toyFresh toyFresh 0 ⟨some (JVal.str []), none⟩
      Reachable.empty trivial
  · decide

/-- Request bodies whose title key is absent or a non-empty string (excluding
the `null` / empty-string titles the counterexample uses). -/
def GoodTitleBody (data : ReqBody) : Prop :=
  data.title = none ∨ ∃ s, data.title = some (JVal.str s) ∧ s ≠ []

/-- C8 (amended): in every state reachable through requests whose title key
is absent or a non-empty string, every stored record has a non-empty
`title_encrypted` (`create_note` and `update_note` then always store either
the encryption of `'Untitled'` or of a non-empty string, and non-empty
plaintext encrypts to non-empty ciphertext). -/
theorem c8_title_invariant_amended (db : List Note) (h : Reachable GoodTitleBody db) :
    ∀ r ∈ db, r.title_encrypted ≠ [] := by
  induction h with
  | empty => simp
  | create db C fT fC now data hdb hP ih =>
    intro r hr
    unfold create_note at hr
    rcases List.mem_append.mp hr with h1 | h1
    · exact ih r h1
    · have hr2 : r = ⟨maxId db + 1, (Note.from_dict C fT fC data).1,
        (Note.from_dict C fT fC data).2, now⟩ := by simpa using h1
      subst hr2
      show (Note.from_dict C fT fC data).1 ≠ []
      unfold Note.from_dict
      rcases hP with hnone | ⟨s, hsome, hs⟩
      · rw [hnone]
        exact encrypt_text_ne_nil C fT untitled (by decide)
      · rw [hsome]
        exact encrypt_text_ne_nil C fT s hs
  | update db C fT fC now id data hdb hP ih =>
    intro r hr
    unfold update_note at hr
    cases hfind : db.find? (fun x => x.id == id) with
    | none =>
      rw [hfind] at hr
      exact ih r hr
    | some y =>
      rw [hfind] at hr
      obtain ⟨x, hx, hxr⟩ := List.mem_map.mp hr
      by_cases hid : x.id = id
      · rw [if_pos hid] at hxr
        subst hxr
        show encrypt_text C fT (dictGet data.title untitled) ≠ []
        rcases hP with hnone | ⟨s, hsome, hs⟩
        · rw [hnone]
          exact encrypt_text_ne_nil C fT untitled (by decide)
        · rw [hsome]
          exact encrypt_text_ne_nil C fT s hs
      · rw [if_neg hid] at hxr
        subst hxr
        exact ih x hx
  | delete db id hdb ih =>
    intro r hr
    unfold delete_note at hr
    cases hfind : db.find? (fun x => x.id == id) with
    | none =>
      rw [hfind] at hr
      exact ih r hr
    | some y =>
      rw [hfind] at hr
      exact ih r (List.mem_filter.mp hr).1

/-- The store after one `create_note` with an absent title. -/
def c8goodDb : List Note := (create_note toyCrypto toyFresh toyFresh 0 [] ⟨none, none⟩).1

set_option maxRecDepth 8192 in
theorem c8_witness :
    Reachable GoodTitleBody c8goodDb ∧
      (⟨1, encrypt_text toyCrypto toyFresh (JVal.str untitled), [], 0⟩ : Note).title_encrypted
        ≠ [] := by
  have hreach : Reachable GoodTitleBody c8goodDb :=
    Reachable.create [] toyCrypto toyFresh toyFresh 0 ⟨none, none⟩ Reachable.empty
      (Or.inl rfl)
  exact ⟨hreach, c8_title_invariant_amended c8goodDb hreach _ (by decide)⟩

/-- C10: the `'Untitled'` / `''` defaults apply only when the key is entirely
absent from the JSON object: a title key present with value `null` or `""`
yields an empty stored `title_encrypted` and an empty view title (likewise
for content), both in `create_note` and in `update_note`; an absent title
yields the `'Untitled'` view. -/
theorem c10_explicit_null_empty (C : Crypto) (fT fC : Fresh) (now : Nat)
    (db : List Note) (id : Nat) (r : Note) (t c : Option JVal)
    (hC : GoodCrypto C) (hfT : GoodFresh fT)
    (hfind : db.find? (fun x => x.id == id) = some r) :
    ((create_note C fT fC now db ⟨some JVal.null, c⟩).1 =
        db ++ [⟨maxId db + 1, [], encrypt_text C fC (dictGet c []), now⟩] ∧
      (create_note C fT fC now db ⟨some JVal.null, c⟩).2.title = []) ∧
    ((create_note C fT fC now db ⟨some (JVal.str []), c⟩).1 =
        db ++ [⟨maxId db + 1, [], encrypt_text C fC (dictGet c []), now⟩] ∧
      (create_note C fT fC now db ⟨some (JVal.str []), c⟩).2.title = []) ∧
    (create_note C fT fC now db ⟨none, c⟩).2.title = untitled ∧
    ((create_note C fT fC now db ⟨t, some JVal.null⟩).1 =
        db ++ [⟨maxId db + 1, encrypt_text C fT (dictGet t untitled), [], now⟩] ∧
      (create_note C fT fC now db ⟨t, some JVal.null⟩).2.content = []) ∧
    ((create_note C fT fC now db ⟨t, some (JVal.str [])⟩).1 =
        db ++ [⟨maxId db + 1, encrypt_text C fT (dictGet t untitled), [], now⟩] ∧
      (create_note C fT fC now db ⟨t, some (JVal.str [])⟩).2.content = []) ∧
    (update_note C fT fC now db id ⟨some JVal.null, c⟩).1 =
      db.map (fun x =>
        if x.id = id then
          { x with
            title_encrypted := ([] : PyStr),
            content_encrypted := encrypt_text C fC (dictGet c []),
            timestamp := now }
        else x) := by
  refine ⟨⟨rfl, rfl⟩, ⟨rfl, rfl⟩, ?_, ⟨rfl, rfl⟩, ⟨rfl, rfl⟩, ?_⟩
  · show decrypt_text C (encrypt_text C fT (JVal.str untitled)) = untitled
    exact decrypt_text_encrypt_helper C fT untitled hC hfT (by decide) (by decide)
  · unfold update_note
    rw [hfind]
    rfl

theorem c10_witness :
    (create_note toyCrypto toyFresh toyFresh 2 c4db ⟨some JVal.null, none⟩).2.title = [] ∧
    (create_note toyCrypto toyFresh toyFresh 2 c4db ⟨some (JVal.str []), none⟩).2.title = [] ∧
    (create_note toyCrypto toyFresh toyFresh 2 c4db ⟨none, none⟩).2.title = untitled ∧
    (create_note toyCrypto toyFresh toyFresh 2 c4db ⟨none, some JVal.null⟩).2.content = [] := by
  have h := c10_explicit_null_empty toyCrypto toyFresh toyFresh 2 c4db 1 ⟨1, [], [], 0⟩
    none none toyCrypto_good toyFresh_good (by decide)
  exact ⟨h.1.2, h.2.1.2, h.2.2.1, h.2.2.2.1.2⟩
